import Mathlib

/-!
Shallow embedding of the zexe rank-one constraint-system core
(`src/r1cs-core/src/constraint_system.rs`) and of the gadget code under
`src/r1cs-std/` that the claims refer to, together with proofs settling the
claims.

Modelling conventions:
* Rust `usize` counters become `Nat` (no overflow is relevant to any claim).
* The `BTreeMap<LcIndex, LinearCombination>` has dense keys `0 .. n-1` (keys
  are only ever created by `new_lc`, which uses the running counter), so it is
  embedded as a `List` whose position is the key; `BTreeMap` iteration order
  (ascending keys) coincides with list order.
* Interior mutability (`Rc<RefCell<...>>`) becomes explicit state passing:
  every mutating operation returns the updated system.
* Rust `Result` becomes `Except`; a Rust runtime abort (out-of-bounds `Vec`
  indexing, failed `expect`/`unwrap`) is the `Crash` error of an
  `Except Crash` result.
* `assigned_value`/`eval_lc` recurse through symbolic linear combinations; the
  Rust code recurses unboundedly (the memo cache is semantically transparent),
  so the embedding carries an explicit fuel parameter that is decremented at
  each symbolic indirection.  Claims about evaluation are stated relative to a
  fuel for which evaluation succeeds.
-/

set_option linter.unusedVariables false

namespace R1CS

/-- Error type of constraint synthesis (`SynthesisError` in the source). -/
inductive SynthesisError where
  | AssignmentMissing
  | DivisionByZero
  | Unsatisfiable
  | MissingCS
  | MalformedVerifyingKey
  deriving DecidableEq, Repr

/-- Operating mode of a `ConstraintSystem`; `Prove b` embeds
`Mode::Prove { construct_matrices: b }`. -/
inductive Mode where
  | Setup
  | Prove (construct_matrices : Bool)
  deriving DecidableEq, Repr

/-- Variables of a rank-one constraint system (`Variable` in `r1cs-core`). -/
inductive Variable where
  | Zero
  | One
  | Instance (i : Nat)
  | Witness (i : Nat)
  | SymbolicLc (k : Nat)
  deriving DecidableEq, Repr

/-- Whether a variable is a symbolic linear-combination reference
(`Variable::is_lc`). -/
def Variable.is_lc : Variable → Bool
  | .SymbolicLc _ => true
  | _ => false

/-- The index of a symbolic linear combination (`Variable::get_lc_index`). -/
def Variable.get_lc_index : Variable → Option Nat
  | .SymbolicLc k => some k
  | _ => none

/-- Modelled from the spec: the column map used by matrix emission
(`Variable::get_index_unchecked`, whose definition lives in `r1cs-core`
outside `src/`): `One` is column 0, `Instance i` is column `i`, `Witness j`
is column `num_instance_variables + j`, while `Zero` and `SymbolicLc` have no
column. -/
def Variable.get_index_unchecked (witness_offset : Nat) : Variable → Option Nat
  | .One => some 0
  | .Instance i => some i
  | .Witness j => some (witness_offset + j)
  | .Zero => none
  | .SymbolicLc _ => none

/-- A linear combination: an ordered list of coefficient/variable pairs. -/
abbrev LinearCombination (F : Type) := List (F × Variable)

/-- Modelled from the spec: scalar multiplication of a linear combination
distributes the scalar over every coefficient (`LinearCombination` arithmetic
lives in `r1cs-core` outside `src/`). -/
def lcMulScalar {F : Type} [Mul F] (lc : LinearCombination F) (coeff : F) :
    LinearCombination F :=
  lc.map fun t => (coeff * t.1, t.2)

/-- Discriminant tag used to order variables by identity. -/
def Variable.tagOf : Variable → Nat
  | .Zero => 0
  | .One => 1
  | .Instance _ => 2
  | .Witness _ => 3
  | .SymbolicLc _ => 4

/-- Index component used to order variables by identity. -/
def Variable.idxOf : Variable → Nat
  | .Zero => 0
  | .One => 0
  | .Instance i => i
  | .Witness i => i
  | .SymbolicLc k => k

/-- Ordering of terms by variable identity (tag first, then index). -/
def termLe {F : Type} (s t : F × Variable) : Prop :=
  s.2.tagOf < t.2.tagOf ∨ (s.2.tagOf = t.2.tagOf ∧ s.2.idxOf ≤ t.2.idxOf)

/-- Strict version of `termLe`. -/
def termLt {F : Type} (s t : F × Variable) : Prop :=
  s.2.tagOf < t.2.tagOf ∨ (s.2.tagOf = t.2.tagOf ∧ s.2.idxOf < t.2.idxOf)

instance {F : Type} : DecidableRel (termLe (F := F)) := fun _ _ => by
  unfold termLe; infer_instance

instance {F : Type} : DecidableRel (termLt (F := F)) := fun _ _ => by
  unfold termLt; infer_instance

instance {F : Type} : IsTotal (F × Variable) termLe :=
  ⟨fun s t => by unfold termLe; omega⟩

instance {F : Type} : IsTrans (F × Variable) termLe :=
  ⟨fun a b c hab hbc => by unfold termLe at *; omega⟩

instance {F : Type} : IsTrans (F × Variable) termLt :=
  ⟨fun a b c hab hbc => by unfold termLt at *; omega⟩

/-- Worker of `mergeAdj`: `(c, v)` is the run currently being summed. -/
def mergeAdjRun {F : Type} [Add F] (c : F) (v : Variable) :
    LinearCombination F → LinearCombination F
  | [] => [(c, v)]
  | (c2, v2) :: rest =>
    if v = v2 then mergeAdjRun (c + c2) v rest
    else (c, v) :: mergeAdjRun c2 v2 rest

/-- Modelled from the spec: the adjacent-duplicate summing phase of
`LinearCombination::compactify` (outside `src/`): fold runs of equal
variables into a single term whose coefficient is the sum of the run. -/
def mergeAdj {F : Type} [Add F] : LinearCombination F → LinearCombination F
  | [] => []
  | (c, v) :: rest => mergeAdjRun c v rest

/-- Modelled from the spec: `compactify` sorts terms by variable identity,
sums duplicate coefficients, and drops zero-coefficient terms. -/
def compactify {F : Type} [Add F] [Zero F] [DecidableEq F]
    (lc : LinearCombination F) : LinearCombination F :=
  (mergeAdj (lc.insertionSort termLe)).filter fun t => decide (t.1 ≠ 0)

/-- Rank-one constraint system arena (`ConstraintSystem<F>` in the source).
The memoization cache `lc_assignment_cache` is omitted: it is semantically
transparent for evaluation. The Rust field `namespace` is a reserved word in
Lean and becomes `namespace_stack`. -/
structure ConstraintSystem (F : Type) where
  mode : Mode
  num_instance_variables : Nat
  num_witness_variables : Nat
  num_constraints : Nat
  num_linear_combinations : Nat
  instance_assignment : List F
  witness_assignment : List F
  lc_map : List (LinearCombination F)
  namespace_stack : List String
  current_namespace_path : String
  constraint_names : List String
  a_constraints : List Nat
  b_constraints : List Nat
  c_constraints : List Nat
  deriving DecidableEq

/-- Emitted matrices record (`ConstraintMatrices<F>` in the source). -/
structure ConstraintMatrices (F : Type) where
  num_instance_variables : Nat
  num_witness_variables : Nat
  num_constraints : Nat
  a_num_non_zero : Nat
  b_num_non_zero : Nat
  c_num_non_zero : Nat
  a : List (List (F × Nat))
  b : List (List (F × Nat))
  c : List (List (F × Nat))
  deriving DecidableEq

/-- Marker for a Rust runtime abort: out-of-bounds indexing or a failed
`expect`/`unwrap`. -/
inductive Crash where
  | crash
  deriving DecidableEq, Repr

/-- Embeds `ConstraintSystem::new`: fresh arena in mode
`Prove { construct_matrices: true }` with instance variable 0 preassigned to
one. -/
def ConstraintSystem.new (F : Type) [Field F] : ConstraintSystem F where
  mode := .Prove true
  num_instance_variables := 1
  num_witness_variables := 0
  num_constraints := 0
  num_linear_combinations := 0
  instance_assignment := [1]
  witness_assignment := []
  lc_map := []
  namespace_stack := []
  current_namespace_path := ""
  constraint_names := []
  a_constraints := []
  b_constraints := []
  c_constraints := []

/-- Embeds `ConstraintSystem::is_in_setup_mode`. -/
def ConstraintSystem.is_in_setup_mode {F : Type} (cs : ConstraintSystem F) : Bool :=
  decide (cs.mode = Mode.Setup)

/-- Embeds `ConstraintSystem::should_construct_matrices`. -/
def ConstraintSystem.should_construct_matrices {F : Type} (cs : ConstraintSystem F) : Bool :=
  match cs.mode with
  | .Setup => true
  | .Prove construct_matrices => construct_matrices

/-- Embeds `ConstraintSystem::compute_full_name`: the Rust code joins the
two-element array `[current_namespace_path, name]` with separator "/", which
is exactly `path ++ "/" ++ name`. -/
def ConstraintSystem.compute_full_name {F : Type} (cs : ConstraintSystem F)
    (name : String) : String :=
  cs.current_namespace_path ++ "/" ++ name

/-- Embeds `ConstraintSystem::new_input_variable`.  The counter is bumped
before the thunk runs; in `Setup` mode the thunk is not evaluated. -/
def ConstraintSystem.new_input_variable {F : Type} (cs : ConstraintSystem F)
    (f : Unit → Except SynthesisError F) :
    ConstraintSystem F × Except SynthesisError Variable :=
  let index := cs.num_instance_variables
  let cs := { cs with num_instance_variables := index + 1 }
  if cs.is_in_setup_mode then (cs, .ok (.Instance index))
  else
    match f () with
    | .error e => (cs, .error e)
    | .ok v =>
      ({ cs with instance_assignment := cs.instance_assignment ++ [v] },
        .ok (.Instance index))

/-- Embeds `ConstraintSystem::new_witness_variable`. -/
def ConstraintSystem.new_witness_variable {F : Type} (cs : ConstraintSystem F)
    (f : Unit → Except SynthesisError F) :
    ConstraintSystem F × Except SynthesisError Variable :=
  let index := cs.num_witness_variables
  let cs := { cs with num_witness_variables := index + 1 }
  if cs.is_in_setup_mode then (cs, .ok (.Witness index))
  else
    match f () with
    | .error e => (cs, .error e)
    | .ok v =>
      ({ cs with witness_assignment := cs.witness_assignment ++ [v] },
        .ok (.Witness index))

/-- Embeds `ConstraintSystem::new_lc`: registers the linear combination under
the next dense index (BTreeMap insertion at the running counter is an append
in the dense-list model).  The Rust signature returns `Result` but never
errs, so the embedding returns the variable directly. -/
def ConstraintSystem.new_lc {F : Type} (cs : ConstraintSystem F)
    (lc : LinearCombination F) : ConstraintSystem F × Variable :=
  let index := cs.num_linear_combinations
  ({ cs with
      lc_map := cs.lc_map ++ [lc]
      num_linear_combinations := index + 1 },
    .SymbolicLc index)

/-- Embeds `ConstraintSystem::enforce_named_constraint`.  The `unwrap` on
`get_lc_index` never fails because `new_lc` always returns a `SymbolicLc`;
the default 0 models that dead branch. -/
def ConstraintSystem.enforce_named_constraint {F : Type} (cs : ConstraintSystem F)
    (name : String) (a b c : LinearCombination F) : ConstraintSystem F :=
  let cs :=
    if cs.should_construct_matrices then
      let (cs, va) := cs.new_lc a
      let (cs, vb) := cs.new_lc b
      let (cs, vc) := cs.new_lc c
      { cs with
          a_constraints := cs.a_constraints ++ [va.get_lc_index.getD 0]
          b_constraints := cs.b_constraints ++ [vb.get_lc_index.getD 0]
          c_constraints := cs.c_constraints ++ [vc.get_lc_index.getD 0] }
    else cs
  let full := cs.compute_full_name name
  { cs with
      num_constraints := cs.num_constraints + 1
      constraint_names := cs.constraint_names ++ [full] }

/-- Embeds the unnamed `ConstraintSystem::enforce_constraint`: the local name
is the decimal rendering of `num_constraints` at call time. -/
def ConstraintSystem.enforce_constraint {F : Type} (cs : ConstraintSystem F)
    (a b c : LinearCombination F) : ConstraintSystem F :=
  cs.enforce_named_constraint (toString cs.num_constraints) a b c

/-- Embeds `ConstraintSystem::enter_namespace`. -/
def ConstraintSystem.enter_namespace {F : Type} (cs : ConstraintSystem F)
    (name : String) : ConstraintSystem F :=
  let stack := cs.namespace_stack ++ [name]
  { cs with
      namespace_stack := stack
      current_namespace_path := String.intercalate "/" stack }

/-- Embeds `ConstraintSystem::leave_namespace`. -/
def ConstraintSystem.leave_namespace {F : Type} (cs : ConstraintSystem F) :
    ConstraintSystem F :=
  let stack := cs.namespace_stack.dropLast
  { cs with
      namespace_stack := stack
      current_namespace_path := String.intercalate "/" stack }

/-- Accumulating loop of `eval_lc`: `acc += coeff * resolver(var)?`, where
`resolver` is `assigned_value` at the current fuel. -/
def lcEvalLoop {F : Type} [Field F] (resolver : Variable → Option F) (acc : F) :
    List (F × Variable) → Option F
  | [] => some acc
  | (coeff, v) :: rest =>
    match resolver v with
    | none => none
    | some value => lcEvalLoop resolver (acc + coeff * value) rest

/-- Embeds `ConstraintSystem::assigned_value` (with the memo cache elided).
`fuel` bounds the depth of symbolic indirections — the Rust code recurses
unboundedly through `eval_lc`; the symbolic case at positive fuel is
definitionally `eval_lc` at the decremented fuel. -/
def ConstraintSystem.assigned_value {F : Type} [Field F] (cs : ConstraintSystem F) :
    Nat → Variable → Option F
  | _, .One => some 1
  | _, .Zero => some 0
  | _, .Witness idx => cs.witness_assignment.get? idx
  | _, .Instance idx => cs.instance_assignment.get? idx
  | 0, .SymbolicLc _ => none
  | fuel + 1, .SymbolicLc idx =>
    match cs.lc_map.get? idx with
    | none => none
    | some lc => lcEvalLoop (cs.assigned_value fuel) 0 lc

/-- Embeds `ConstraintSystem::eval_lc`: look the index up in `lc_map` and sum
`coeff * assigned_value(var)` over the terms, propagating any missing value. -/
def ConstraintSystem.eval_lc {F : Type} [Field F] (cs : ConstraintSystem F)
    (fuel : Nat) (idx : Nat) : Option F :=
  match cs.lc_map.get? idx with
  | none => none
  | some lc => lcEvalLoop (cs.assigned_value fuel) 0 lc

/-- Loop body of `which_is_unsatisfied`: iterate `rem` more constraint
indices starting at `i`.  Out-of-bounds indexing of the parallel vectors is a
`Crash`; a missing evaluation early-returns `none` exactly as the Rust `?`
operator does. -/
def ConstraintSystem.wiuLoop {F : Type} [Field F] [DecidableEq F]
    (cs : ConstraintSystem F) (fuel : Nat) : Nat → Nat → Except Crash (Option String)
  | _, 0 => .ok none
  | i, rem + 1 =>
    match cs.a_constraints.get? i with
    | none => .error .crash
    | some ai =>
      match cs.eval_lc fuel ai with
      | none => .ok none
      | some a =>
        match cs.b_constraints.get? i with
        | none => .error .crash
        | some bi =>
          match cs.eval_lc fuel bi with
          | none => .ok none
          | some b =>
            match cs.c_constraints.get? i with
            | none => .error .crash
            | some ci =>
              match cs.eval_lc fuel ci with
              | none => .ok none
              | some c =>
                if a * b ≠ c then
                  match cs.constraint_names.get? i with
                  | none => .error .crash
                  | some nm => .ok (some nm)
                else cs.wiuLoop fuel (i + 1) rem

/-- Embeds `ConstraintSystem::which_is_unsatisfied`. -/
def ConstraintSystem.which_is_unsatisfied {F : Type} [Field F] [DecidableEq F]
    (cs : ConstraintSystem F) (fuel : Nat) : Except Crash (Option String) :=
  if cs.is_in_setup_mode then .ok none
  else cs.wiuLoop fuel 0 cs.num_constraints

/-- Embeds `ConstraintSystem::is_satisfied`. -/
def ConstraintSystem.is_satisfied {F : Type} [Field F] [DecidableEq F]
    (cs : ConstraintSystem F) (fuel : Nat) : Except Crash (Option Bool) :=
  if cs.is_in_setup_mode then .ok none
  else (cs.which_is_unsatisfied fuel).map fun r => some r.isNone

/-- Embeds `ConstraintSystem::make_row`: keep non-zero coefficients, mapping
each variable through the column map; a variable without a column is the
`expect("no symbolic LCs")` abort, surfaced as `none`. -/
def makeRow {F : Type} [DecidableEq F] [Zero F] (witness_offset : Nat) :
    LinearCombination F → Option (List (F × Nat))
  | [] => some []
  | (coeff, v) :: rest =>
    if coeff = 0 then makeRow witness_offset rest
    else
      match v.get_index_unchecked witness_offset with
      | none => none
      | some i => (makeRow witness_offset rest).map fun r => (coeff, i) :: r

/-- Materialize the rows referenced by one constraint-index vector; a missing
`lc_map` entry is the `unwrap` abort. -/
def ConstraintSystem.rowsOf {F : Type} [DecidableEq F] [Zero F]
    (cs : ConstraintSystem F) (idxs : List Nat) :
    Except Crash (List (List (F × Nat))) :=
  idxs.mapM fun idx =>
    match cs.lc_map.get? idx with
    | none => .error .crash
    | some lc =>
      match makeRow cs.num_instance_variables lc with
      | none => .error .crash
      | some r => .ok r

/-- Embeds `ConstraintSystem::to_matrices` faithfully, including its guard:
the source emits matrices only when `mode == Prove { construct_matrices:
false }` and returns `None` otherwise. -/
def ConstraintSystem.to_matrices {F : Type} [DecidableEq F] [Zero F]
    (cs : ConstraintSystem F) : Except Crash (Option (ConstraintMatrices F)) :=
  match cs.mode with
  | .Prove false => do
    let a ← cs.rowsOf cs.a_constraints
    let b ← cs.rowsOf cs.b_constraints
    let c ← cs.rowsOf cs.c_constraints
    .ok (some
      { num_instance_variables := cs.num_instance_variables
        num_witness_variables := cs.num_witness_variables
        num_constraints := cs.num_constraints
        a_num_non_zero := (a.map List.length).sum
        b_num_non_zero := (b.map List.length).sum
        c_num_non_zero := (c.map List.length).sum
        a := a
        b := b
        c := c })
  | _ => .ok none

/-- Substitution step of `inline_all_lcs`: expand one linear combination
against the already-inlined prefix `inlined`; a reference past the prefix is
the `expect("should be inlined")` abort, surfaced as `none`. -/
def inlineLc {F : Type} [Mul F] (inlined : List (LinearCombination F)) :
    LinearCombination F → Option (LinearCombination F)
  | [] => some []
  | (coeff, .SymbolicLc j) :: rest =>
    match inlined.get? j with
    | none => none
    | some l => (inlineLc inlined rest).map fun tail => lcMulScalar l coeff ++ tail
  | (coeff, v) :: rest =>
    (inlineLc inlined rest).map fun tail => (coeff, v) :: tail

/-- Forward pass of `inline_all_lcs` over the insertion-ordered map,
accumulating the inlined (and compactified) linear combinations. -/
def inlineAllLcsAux {F : Type} [Field F] [DecidableEq F] :
    List (LinearCombination F) → List (LinearCombination F) →
    Option (List (LinearCombination F))
  | acc, [] => some acc
  | acc, lc :: rest =>
    match inlineLc acc lc with
    | none => none
    | some l => inlineAllLcsAux (acc ++ [compactify l]) rest

/-- Embeds `ConstraintSystem::inline_all_lcs`: one forward pass replacing the
map wholesale. -/
def ConstraintSystem.inline_all_lcs {F : Type} [Field F] [DecidableEq F]
    (cs : ConstraintSystem F) : Option (ConstraintSystem F) :=
  (inlineAllLcsAux [] cs.lc_map).map fun m => { cs with lc_map := m }

/-- Shared handle (`ConstraintSystemRef<F>` in the source): either the `None`
sentinel or a live arena. -/
inductive ConstraintSystemRef (F : Type) where
  | None : ConstraintSystemRef F
  | CS (inner : ConstraintSystem F) : ConstraintSystemRef F
  deriving DecidableEq

/-- Embeds `ConstraintSystemRef::new_input_variable`.  Note that the source
maps a `None` handle to `SynthesisError::AssignmentMissing`
(`self.inner().ok_or(SynthesisError::AssignmentMissing)`), unlike every other
handle operation. -/
def ConstraintSystemRef.new_input_variable {F : Type} [Field F]
    (r : ConstraintSystemRef F) (f : Unit → Except SynthesisError F) :
    ConstraintSystemRef F × Except SynthesisError Variable :=
  match r with
  | .None => (.None, .error SynthesisError.AssignmentMissing)
  | .CS cs =>
    let (cs, res) := cs.new_input_variable f
    (.CS cs, res)

/-- Embeds `ConstraintSystemRef::new_witness_variable`: a `None` handle fails
with `SynthesisError::MissingCS`. -/
def ConstraintSystemRef.new_witness_variable {F : Type} [Field F]
    (r : ConstraintSystemRef F) (f : Unit → Except SynthesisError F) :
    ConstraintSystemRef F × Except SynthesisError Variable :=
  match r with
  | .None => (.None, .error SynthesisError.MissingCS)
  | .CS cs =>
    let (cs, res) := cs.new_witness_variable f
    (.CS cs, res)

/-! ### Value-level model of the twisted-Edwards group gadget

The curve gadget of `src/r1cs-std/src/groups/curves/twisted_edwards/mod.rs`
is embedded at the level of the values its point variables carry: the points
of the curve form an additive commutative group, the gadget identity
`AffineVar::zero()` carries the group identity, `double_in_place` doubles the
carried value, the unified addition carries the group sum, and
`enforce_equal` records the proposition that two carried values coincide.
Every constraint emitted by the arithmetic sub-gadgets (the `mul_equals`
checks of addition and doubling) holds by construction for honestly computed
witnesses, so the observable content of a subgroup-check allocation is the
list of point equalities it enforces via `enforce_equal`. -/

section GroupModel

variable {G : Type} [AddCommGroup G]

/-- One iteration of the shared double-and-add loop of
`enforce_prime_order` and of Witness-mode `new_variable` (state is the pair
`(seen_one, result)`, bits arrive most-significant first). -/
def doubleAddStep (ge : G) (st : Bool × G) (b : Bool) : Bool × G :=
  let seen_one := st.1
  let result := st.2
  let old_seen_one := seen_one
  let result := if seen_one then result + result else result
  let seen_one := if seen_one then seen_one else b
  let result := if b then (if old_seen_one then result + ge else ge) else result
  (seen_one, result)

/-- Value carried by `result` after the double-and-add loop over the given
most-significant-first bits, starting from `Self::zero()`. -/
def doubleAndAdd (ge : G) (bits : List Bool) : G :=
  (bits.foldl (doubleAddStep ge) (false, 0)).2

/-- Value-level effect of the `for _ in 0..power_of_2 { ge.double_in_place()? }`
loop: double the carried value `k` times. -/
def doubleIter (k : Nat) (p : G) : G :=
  match k with
  | 0 => p
  | k + 1 => doubleIter k (p + p)

/-- Embeds `AffineVar::enforce_prime_order` at value level: it runs
double-and-add over the bits of `r - 1` and then enforces
`self.negate().enforce_equal(result)`; the returned list holds the point
equalities enforced. -/
def enforce_prime_order (g : G) (modulus_minus_1_bits : List Bool) :
    List (G × G) :=
  let result := doubleAndAdd g modulus_minus_1_bits
  [(-g, result)]

/-- Embeds the order-check arm of the Witness branch of
`AllocVar::new_variable` for `AffineVar` (taken when the odd part of the
cofactor has Hamming weight at least that of `r - 1`): the allocated point
`ge0` carries `g * (2^power_of_2)⁻¹`, it is doubled `power_of_2` times, the
double-and-add loop over the bits of `r - 1` computes `result`, and then the
source enforces `ge.enforce_equal(&ge)` and returns `ge`, leaving `result`
unused.  Returns the point carried by the returned variable together with
the list of point equalities enforced. -/
def new_variable_witness_order_check (ge0 : G) (power_of_2 : Nat)
    (modulus_minus_1_bits : List Bool) : G × List (G × G) :=
  let ge := doubleIter power_of_2 ge0
  let result := doubleAndAdd ge modulus_minus_1_bits
  (ge, [(ge, ge)])

/-- A list of enforced point equalities is satisfied when each pair is equal. -/
def enforcedHold (l : List (G × G)) : Prop := ∀ p ∈ l, p.1 = p.2

end GroupModel

/-! ### Value-level model of `AffineVar::is_zero` -/

/-- Modelled from the spec: value semantics of the base-field `is_zero`
gadget (section 4.5; `FieldVar` implementations live outside `src/`): the
returned Boolean carries whether the carried value is zero. -/
def fvIsZero {F : Type} [Zero F] [DecidableEq F] (x : F) : Bool :=
  decide (x = 0)

/-- Modelled from the spec: value semantics of the base-field `is_one`
gadget. -/
def fvIsOne {F : Type} [One F] [DecidableEq F] (x : F) : Bool :=
  decide (x = 1)

/-- Coordinates carried by a twisted-Edwards `AffineVar`. -/
structure TEAffineVar (F : Type) where
  x : F
  y : F
  deriving DecidableEq

/-- Embeds `AffineVar::zero`: the affine identity `(0, 1)`. -/
def TEAffineVar.zero (F : Type) [Zero F] [One F] : TEAffineVar F := ⟨0, 1⟩

/-- Embeds `AffineVar::is_zero` exactly as written in the source:
`self.x.is_zero()?.and(&self.x.is_one()?)` — both conjuncts test the x
coordinate and y is never inspected. -/
def TEAffineVar.is_zero {F : Type} [Zero F] [One F] [DecidableEq F]
    (p : TEAffineVar F) : Bool :=
  (fvIsZero p.x).and (fvIsOne p.x)

/-! ### Constraint-count model of `CubicExtVar::mul_equals`

`src/r1cs-std/src/fields/cubic_extension.rs` is embedded at the level of the
carried base-field values plus a running count of emitted rank-one
constraints; the base-field (`FieldVar`) operations it calls live outside
`src/` and are modelled from the spec. -/

/-- A non-constant base-field variable, represented by its carried value. -/
structure BFVar (F : Type) where
  val : F
  deriving DecidableEq

/-- Modelled from the spec: multiplying two non-constant base-field
variables allocates a fresh witness for the product and enforces it with a
single rank-one constraint (section 4.5).  The `Nat` is the running
constraint count. -/
def bfMul {F : Type} [Mul F] (a b : BFVar F) (n : Nat) : Nat × BFVar F :=
  (n + 1, ⟨a.val * b.val⟩)

/-- Modelled from the spec: `mul_equals` on base-field variables enforces
`a * b = c` as a single rank-one constraint. -/
def bfMulEquals {F : Type} (a b c : BFVar F) (n : Nat) : Nat :=
  n + 1

/-- Modelled from the spec: addition of base-field variables is pure
linear-combination algebra and adds no constraint. -/
def bfAdd {F : Type} [Add F] (a b : BFVar F) : BFVar F :=
  ⟨a.val + b.val⟩

/-- Modelled from the spec: subtraction of base-field variables adds no
constraint. -/
def bfSub {F : Type} [Sub F] (a b : BFVar F) : BFVar F :=
  ⟨a.val - b.val⟩

/-- Modelled from the spec: scaling a base-field variable by a field
constant adds no constraint. -/
def bfMulConst {F : Type} [Mul F] (a : BFVar F) (k : F) : BFVar F :=
  ⟨a.val * k⟩

/-- Coefficients of a cubic-extension variable (`CubicExtVar`), each a
non-constant base-field variable. -/
structure CubicExtVar (F : Type) where
  c0 : BFVar F
  c1 : BFVar F
  c2 : BFVar F
  deriving DecidableEq

/-- Embeds `CubicExtVar::mul_equals`: three products `v0, v1, v2` followed by
three `mul_equals` checks of the rearranged Karatsuba coefficient
identities.  Takes the running constraint count and returns the count after
the call. -/
def CubicExtVar.mul_equals {F : Type} [Field F] (nonresidue : F)
    (a other result : CubicExtVar F) (n : Nat) : Nat :=
  let (n, v0) := bfMul a.c0 other.c0 n
  let (n, v1) := bfMul a.c1 other.c1 n
  let (n, v2) := bfMul a.c2 other.c2 n
  -- Check c0
  let nr_a1_plus_a2 := bfMulConst (bfAdd a.c1 a.c2) nonresidue
  let b1_plus_b2 := bfAdd other.c1 other.c2
  let nr_v1 := bfMulConst v1 nonresidue
  let nr_v2 := bfMulConst v2 nonresidue
  let to_check0 := bfAdd (bfAdd (bfSub result.c0 v0) nr_v1) nr_v2
  let n := bfMulEquals nr_a1_plus_a2 b1_plus_b2 to_check0 n
  -- Check c1
  let a0_plus_a1 := bfAdd a.c0 a.c1
  let b0_plus_b1 := bfAdd other.c0 other.c1
  let to_check1 := bfAdd (bfAdd (bfSub result.c1 nr_v2) v0) v1
  let n := bfMulEquals a0_plus_a1 b0_plus_b1 to_check1 n
  -- Check c2
  let a0_plus_a2 := bfAdd a.c0 a.c2
  let b0_plus_b2 := bfAdd other.c0 other.c2
  let to_check2 := bfAdd (bfSub (bfAdd result.c2 v0) v1) v2
  bfMulEquals a0_plus_a2 b0_plus_b2 to_check2 n

/-! ### The DAG invariant on registered linear combinations -/

/-- Whether every symbolic reference in `lc` points strictly below `bound`. -/
def lcRefsBelowB {F : Type} (bound : Nat) (lc : LinearCombination F) : Bool :=
  lc.all fun t =>
    match t.2 with
    | .SymbolicLc j => decide (j < bound)
    | _ => true

/-- Decidable form of the ordering invariant of the symbolic-LC DAG: the
entry at overall position `pos + local` references only symbolic indices
strictly smaller than its own. -/
def dagInvariant {F : Type} : Nat → List (LinearCombination F) → Bool
  | _, [] => true
  | pos, lc :: rest => lcRefsBelowB pos lc && dagInvariant (pos + 1) rest

/-- A linear combination with no `SymbolicLc` term. -/
def lcSymFree {F : Type} (lc : LinearCombination F) : Prop :=
  ∀ t ∈ lc, t.2.is_lc = false

/-! ### Concrete scenarios used by witnesses and counterexamples -/

deriving instance DecidableEq for Except

instance {G : Type} [AddCommGroup G] [DecidableEq G] (l : List (G × G)) :
    Decidable (enforcedHold l) := by
  unfold enforcedHold; infer_instance

instance : Fact (Nat.Prime 17) := ⟨by norm_num⟩

/-- The single-multiplication scenario of the spec: fresh arena, witnesses
`x = 3`, `y = 5`, `z`, one unnamed constraint `x * y = z`, over the prime
field with 17 elements (whose arithmetic the kernel can evaluate). -/
def csMul (z : ZMod 17) : ConstraintSystem (ZMod 17) :=
  let cs := ConstraintSystem.new (ZMod 17)
  let (cs, _) := cs.new_witness_variable fun _ => .ok 3
  let (cs, _) := cs.new_witness_variable fun _ => .ok 5
  let (cs, _) := cs.new_witness_variable fun _ => .ok z
  cs.enforce_constraint [(1, .Witness 0)] [(1, .Witness 1)] [(1, .Witness 2)]

/-- A small arena whose second registered linear combination references the
first symbolically; the references satisfy the DAG invariant. -/
def csSymbolic : ConstraintSystem (ZMod 17) :=
  { ConstraintSystem.new (ZMod 17) with
      lc_map := [[(1, .Witness 0)], [(2, .SymbolicLc 0), (1, .Witness 1)]]
      num_linear_combinations := 2 }

/-! ### Small list helpers -/

/-- Successful indexed lookup expressed through `getD`. -/
theorem list_get?_eq_some_getD {α : Type} :
    ∀ (l : List α) (i : Nat) (d : α), i < l.length → l.get? i = some (l.getD i d)
  | [], i, d, h => absurd h (by simp)
  | a :: l, 0, d, _ => rfl
  | a :: l, i + 1, d, h => list_get?_eq_some_getD l i d (by simpa using h)

/-! ### Satisfaction-loop lemmas -/

/-- When every constraint in the window `[i, i + rem)` is in range,
evaluates, and passes the product check, the loop returns `ok none`. -/
theorem wiuLoop_ok_none {F : Type} [Field F] [DecidableEq F]
    (cs : ConstraintSystem F) (fuel : Nat) (va vb vc : Nat → F)
    (hla : cs.a_constraints.length = cs.num_constraints)
    (hlb : cs.b_constraints.length = cs.num_constraints)
    (hlc : cs.c_constraints.length = cs.num_constraints)
    (heval : ∀ i, i < cs.num_constraints →
        cs.eval_lc fuel (cs.a_constraints.getD i 0) = some (va i)
        ∧ cs.eval_lc fuel (cs.b_constraints.getD i 0) = some (vb i)
        ∧ cs.eval_lc fuel (cs.c_constraints.getD i 0) = some (vc i)) :
    ∀ rem i, i + rem ≤ cs.num_constraints →
      (∀ k, i ≤ k → k < i + rem → va k * vb k = vc k) →
      cs.wiuLoop fuel i rem = .ok none := by
  intro rem
  induction rem with
  | zero => intro i _ _; rfl
  | succ r ih =>
    intro i hle hsat
    have hi : i < cs.num_constraints := by omega
    obtain ⟨hea, heb, hec⟩ := heval i hi
    have hga := list_get?_eq_some_getD cs.a_constraints i 0 (by omega)
    have hgb := list_get?_eq_some_getD cs.b_constraints i 0 (by omega)
    have hgc := list_get?_eq_some_getD cs.c_constraints i 0 (by omega)
    have heq : va i * vb i = vc i := hsat i (le_refl i) (by omega)
    rw [ConstraintSystem.wiuLoop]
    simp only [hga, hea, hgb, heb, hgc, hec]
    rw [if_neg (by simp [heq])]
    exact ih (i + 1) (by omega) (fun k h1 h2 => hsat k (by omega) (by omega))

/-- When the constraints before `j` pass the product check and `j` fails it,
the loop starting inside the prefix returns the name recorded for `j`. -/
theorem wiuLoop_first_fail {F : Type} [Field F] [DecidableEq F]
    (cs : ConstraintSystem F) (fuel : Nat) (va vb vc : Nat → F)
    (hla : cs.a_constraints.length = cs.num_constraints)
    (hlb : cs.b_constraints.length = cs.num_constraints)
    (hlc : cs.c_constraints.length = cs.num_constraints)
    (hln : cs.constraint_names.length = cs.num_constraints)
    (heval : ∀ i, i < cs.num_constraints →
        cs.eval_lc fuel (cs.a_constraints.getD i 0) = some (va i)
        ∧ cs.eval_lc fuel (cs.b_constraints.getD i 0) = some (vb i)
        ∧ cs.eval_lc fuel (cs.c_constraints.getD i 0) = some (vc i)) :
    ∀ rem i j, i ≤ j → j < i + rem → j < cs.num_constraints →
      (∀ k, i ≤ k → k < j → va k * vb k = vc k) →
      va j * vb j ≠ vc j →
      cs.wiuLoop fuel i rem = .ok (some (cs.constraint_names.getD j "")) := by
  intro rem
  induction rem with
  | zero => intro i j h1 h2; omega
  | succ r ih =>
    intro i j hij hwin hj hpre hfail
    have hi : i < cs.num_constraints := by omega
    obtain ⟨hea, heb, hec⟩ := heval i hi
    have hga := list_get?_eq_some_getD cs.a_constraints i 0 (by omega)
    have hgb := list_get?_eq_some_getD cs.b_constraints i 0 (by omega)
    have hgc := list_get?_eq_some_getD cs.c_constraints i 0 (by omega)
    rcases Nat.eq_or_lt_of_le hij with heq | hlt
    · subst heq
      have hgn := list_get?_eq_some_getD cs.constraint_names i "" (by omega)
      rw [ConstraintSystem.wiuLoop]
      simp only [hga, hea, hgb, heb, hgc, hec, hgn]
      rw [if_pos hfail]
    · have heq : va i * vb i = vc i := hpre i (le_refl i) hlt
      rw [ConstraintSystem.wiuLoop]
      simp only [hga, hea, hgb, heb, hgc, hec]
      rw [if_neg (by simp [heq])]
      exact ih (i + 1) j (by omega) (by omega) hj
        (fun k h1 h2 => hpre k (by omega) h2) hfail

/-! ### Variable-ordering, compactify and inlining lemmas -/

/-- A variable is determined by its ordering key (tag, index). -/
theorem Variable.eq_of_tag_idx : ∀ {a b : Variable},
    a.tagOf = b.tagOf → a.idxOf = b.idxOf → a = b := by
  intro a b ht hi
  cases a <;> cases b <;> simp_all [Variable.tagOf, Variable.idxOf]

theorem termLe_of_lt {F : Type} {s t : F × Variable} (h : termLt s t) :
    termLe s t := by
  unfold termLt at h; unfold termLe; omega

theorem termLt_ne {F : Type} {s t : F × Variable} (h : termLt s t) :
    s.2 ≠ t.2 := by
  intro he
  unfold termLt at h
  rw [he] at h
  omega

theorem termLt_of_le_of_ne {F : Type} {s t : F × Variable}
    (h : termLe s t) (hne : s.2 ≠ t.2) : termLt s t := by
  unfold termLe at h
  unfold termLt
  rcases h with h | ⟨h1, h2⟩
  · exact Or.inl h
  · rcases Nat.lt_or_ge s.2.idxOf t.2.idxOf with h3 | h3
    · exact Or.inr ⟨h1, h3⟩
    · exact absurd (Variable.eq_of_tag_idx h1 (by omega)) hne

/-- The head of a `mergeAdjRun` output carries the variable of the run. -/
theorem mergeAdjRun_head {F : Type} [Add F] :
    ∀ (l : LinearCombination F) (c : F) (v : Variable),
      ∃ c0 rest0, mergeAdjRun c v l = (c0, v) :: rest0
  | [], c, v => ⟨c, [], rfl⟩
  | (c2, v2) :: rest, c, v => by
    unfold mergeAdjRun
    by_cases h : v = v2
    · rw [if_pos h]
      exact mergeAdjRun_head rest (c + c2) v
    · rw [if_neg h]
      exact ⟨c, _, rfl⟩

/-- Every variable in a `mergeAdjRun` output occurs in the input run. -/
theorem mergeAdjRun_vars {F : Type} [Add F] :
    ∀ (l : LinearCombination F) (c : F) (v : Variable) (t : F × Variable),
      t ∈ mergeAdjRun c v l → t.2 = v ∨ ∃ s ∈ l, t.2 = s.2
  | [], c, v, t, ht => by
    simp only [mergeAdjRun, List.mem_singleton] at ht
    left; rw [ht]
  | (c2, v2) :: rest, c, v, t, ht => by
    unfold mergeAdjRun at ht
    by_cases h : v = v2
    · rw [if_pos h] at ht
      rcases mergeAdjRun_vars rest (c + c2) v t ht with h1 | ⟨s, hs, h2⟩
      · exact Or.inl h1
      · exact Or.inr ⟨s, List.mem_cons_of_mem _ hs, h2⟩
    · rw [if_neg h] at ht
      rcases List.mem_cons.mp ht with h1 | h1
      · left; rw [h1]
      · rcases mergeAdjRun_vars rest c2 v2 t h1 with h2 | ⟨s, hs, h3⟩
        · exact Or.inr ⟨(c2, v2), List.mem_cons_self _ _, h2⟩
        · exact Or.inr ⟨s, List.mem_cons_of_mem _ hs, h3⟩

/-- On a sorted run, `mergeAdjRun` yields strictly increasing variables. -/
theorem mergeAdjRun_chain {F : Type} [Add F] :
    ∀ (l : LinearCombination F) (c : F) (v : Variable),
      List.Sorted termLe ((c, v) :: l) →
      List.Chain' termLt (mergeAdjRun c v l)
  | [], c, v, _ => List.chain'_singleton _
  | (c2, v2) :: rest, c, v, hs => by
    rw [List.sorted_cons] at hs
    obtain ⟨hall, hs2⟩ := hs
    unfold mergeAdjRun
    by_cases h : v = v2
    · rw [if_pos h]
      apply mergeAdjRun_chain rest (c + c2) v
      rw [List.sorted_cons]
      rw [List.sorted_cons] at hs2
      refine ⟨?_, hs2.2⟩
      intro b hb
      have hb2 := hs2.1 b hb
      rw [h]
      exact hb2
    · rw [if_neg h]
      rw [List.chain'_cons']
      constructor
      · intro y hy
        obtain ⟨c0, rest0, heq⟩ := mergeAdjRun_head rest c2 v2
        rw [heq] at hy
        simp only [List.head?_cons, Option.mem_def, Option.some.injEq] at hy
        rw [← hy]
        exact termLt_of_le_of_ne (hall (c2, v2) (List.mem_cons_self _ _)) h
      · exact mergeAdjRun_chain rest c2 v2 hs2

/-- On a strictly increasing run, `mergeAdjRun` is the identity. -/
theorem mergeAdjRun_of_chain {F : Type} [Add F] :
    ∀ (l : LinearCombination F) (c : F) (v : Variable),
      List.Chain' termLt ((c, v) :: l) →
      mergeAdjRun c v l = (c, v) :: l
  | [], c, v, _ => rfl
  | (c2, v2) :: rest, c, v, hch => by
    rw [List.chain'_cons] at hch
    have hne : v ≠ v2 := termLt_ne hch.1
    unfold mergeAdjRun
    rw [if_neg hne]
    rw [mergeAdjRun_of_chain rest c2 v2 hch.2]

theorem mergeAdj_sorted_chain {F : Type} [Add F] (l : LinearCombination F)
    (hs : List.Sorted termLe l) : List.Chain' termLt (mergeAdj l) := by
  cases l with
  | nil => exact List.chain'_nil
  | cons t rest =>
    obtain ⟨c, v⟩ := t
    exact mergeAdjRun_chain rest c v hs

theorem mergeAdj_of_chain {F : Type} [Add F] (l : LinearCombination F)
    (hch : List.Chain' termLt l) : mergeAdj l = l := by
  cases l with
  | nil => rfl
  | cons t rest =>
    obtain ⟨c, v⟩ := t
    exact mergeAdjRun_of_chain rest c v hch

theorem mergeAdj_vars {F : Type} [Add F] (l : LinearCombination F)
    (t : F × Variable) (ht : t ∈ mergeAdj l) : ∃ s ∈ l, t.2 = s.2 := by
  cases l with
  | nil => simp [mergeAdj] at ht
  | cons hd rest =>
    obtain ⟨c, v⟩ := hd
    rcases mergeAdjRun_vars rest c v t ht with h | ⟨s, hs, h⟩
    · exact ⟨(c, v), List.mem_cons_self _ _, h⟩
    · exact ⟨s, List.mem_cons_of_mem _ hs, h⟩

/-- Output of `compactify` has strictly increasing variables. -/
theorem compactify_chain {F : Type} [Add F] [Zero F] [DecidableEq F]
    (lc : LinearCombination F) : List.Chain' termLt (compactify lc) := by
  have hs : List.Sorted termLe (lc.insertionSort termLe) :=
    List.sorted_insertionSort termLe lc
  have hch := mergeAdj_sorted_chain _ hs
  unfold compactify
  rw [List.chain'_iff_pairwise] at hch ⊢
  exact hch.filter _

/-- Output of `compactify` has no zero coefficients. -/
theorem compactify_nonzero {F : Type} [Add F] [Zero F] [DecidableEq F]
    (lc : LinearCombination F) (t : F × Variable) (ht : t ∈ compactify lc) :
    ¬ t.1 = 0 := by
  have h := List.of_mem_filter ht
  simpa using h

/-- A canonical linear combination is a `compactify` fixed point. -/
theorem compactify_eq_self {F : Type} [Add F] [Zero F] [DecidableEq F]
    (lc : LinearCombination F) (hch : List.Chain' termLt lc)
    (hnz : ∀ t ∈ lc, ¬ t.1 = 0) : compactify lc = lc := by
  have hsorted : List.Sorted termLe lc := by
    rw [List.chain'_iff_pairwise] at hch
    exact hch.imp termLe_of_lt
  unfold compactify
  rw [hsorted.insertionSort_eq, mergeAdj_of_chain lc hch]
  rw [List.filter_eq_self]
  intro a ha
  simpa using hnz a ha

theorem compactify_idem {F : Type} [Add F] [Zero F] [DecidableEq F]
    (lc : LinearCombination F) : compactify (compactify lc) = compactify lc :=
  compactify_eq_self _ (compactify_chain lc) (compactify_nonzero lc)

theorem compactify_vars {F : Type} [Add F] [Zero F] [DecidableEq F]
    (lc : LinearCombination F) (t : F × Variable) (ht : t ∈ compactify lc) :
    ∃ s ∈ lc, t.2 = s.2 := by
  unfold compactify at ht
  have ht2 := List.mem_of_mem_filter ht
  obtain ⟨s, hs, h⟩ := mergeAdj_vars _ t ht2
  exact ⟨s, (List.mem_insertionSort termLe).mp hs, h⟩

theorem compactify_symFree {F : Type} [Add F] [Zero F] [DecidableEq F]
    (lc : LinearCombination F) (h : lcSymFree lc) :
    lcSymFree (compactify lc) := by
  intro t ht
  obtain ⟨s, hs, heq⟩ := compactify_vars lc t ht
  rw [heq]
  exact h s hs

theorem lcMulScalar_symFree {F : Type} [Mul F] (l : LinearCombination F)
    (c : F) (h : lcSymFree l) : lcSymFree (lcMulScalar l c) := by
  intro t ht
  unfold lcMulScalar at ht
  obtain ⟨s, hs, heq⟩ := List.mem_map.mp ht
  rw [← heq]
  exact h s hs

/-- Unfolding of `inlineLc` at a non-symbolic head term. -/
theorem inlineLc_cons_nonlc {F : Type} [Mul F] (acc : List (LinearCombination F))
    (coeff : F) (v : Variable) (hv : v.is_lc = false) (rest : LinearCombination F) :
    inlineLc acc ((coeff, v) :: rest)
      = (inlineLc acc rest).map fun tail => (coeff, v) :: tail := by
  cases v <;> first | rfl | simp [Variable.is_lc] at hv

/-- Unfolding of `inlineLc` at a resolvable symbolic head term. -/
theorem inlineLc_cons_lc_some {F : Type} [Mul F] (acc : List (LinearCombination F))
    (coeff : F) (j : Nat) (l rest : LinearCombination F)
    (h : acc.get? j = some l) :
    inlineLc acc ((coeff, Variable.SymbolicLc j) :: rest)
      = (inlineLc acc rest).map fun tail => lcMulScalar l coeff ++ tail := by
  show (match acc.get? j with
    | none => none
    | some l => (inlineLc acc rest).map fun tail => lcMulScalar l coeff ++ tail)
      = (inlineLc acc rest).map fun tail => lcMulScalar l coeff ++ tail
  rw [h]

/-- Substitution against a symbolic-free prefix succeeds and produces a
symbolic-free linear combination whenever all references stay below the
prefix length. -/
theorem inlineLc_ok {F : Type} [Mul F] :
    ∀ (lc : LinearCombination F) (acc : List (LinearCombination F)),
      (∀ l ∈ acc, lcSymFree l) →
      (∀ t ∈ lc, ∀ j, t.2 = Variable.SymbolicLc j → j < acc.length) →
      ∃ l2, inlineLc acc lc = some l2 ∧ lcSymFree l2
  | [], acc, hacc, href => ⟨[], rfl, by intro t ht; simp at ht⟩
  | (coeff, v) :: rest, acc, hacc, href => by
    obtain ⟨tail, htail, htailfree⟩ := inlineLc_ok rest acc hacc
      (fun t ht j hj => href t (List.mem_cons_of_mem _ ht) j hj)
    by_cases hv : v.is_lc = true
    · obtain ⟨j, rfl⟩ : ∃ j, v = Variable.SymbolicLc j := by
        cases v <;> simp_all [Variable.is_lc]
      have hj : j < acc.length :=
        href (coeff, Variable.SymbolicLc j) (List.mem_cons_self _ _) j rfl
      have hget := list_get?_eq_some_getD acc j [] hj
      have hmem : acc.getD j [] ∈ acc := List.get?_mem hget
      refine ⟨lcMulScalar (acc.getD j []) coeff ++ tail, ?_, ?_⟩
      · rw [inlineLc_cons_lc_some acc coeff j _ rest hget, htail]
        rfl
      · intro t ht
        rcases List.mem_append.mp ht with h | h
        · exact lcMulScalar_symFree _ _ (hacc _ hmem) t h
        · exact htailfree t h
    · have hv2 : v.is_lc = false := by simpa using hv
      rw [inlineLc_cons_nonlc acc coeff v hv2 rest, htail]
      refine ⟨(coeff, v) :: tail, rfl, ?_⟩
      intro t ht
      rcases List.mem_cons.mp ht with h | h
      · rw [h]; exact hv2
      · exact htailfree t h

/-- On a symbolic-free linear combination, `inlineLc` is the identity. -/
theorem inlineLc_symFree_id {F : Type} [Mul F] :
    ∀ (lc : LinearCombination F) (acc : List (LinearCombination F)),
      lcSymFree lc → inlineLc acc lc = some lc
  | [], acc, _ => rfl
  | (coeff, v) :: rest, acc, h => by
    have hv : v.is_lc = false := h (coeff, v) (List.mem_cons_self _ _)
    rw [inlineLc_cons_nonlc acc coeff v hv rest,
      inlineLc_symFree_id rest acc (fun t ht => h t (List.mem_cons_of_mem _ ht))]
    rfl

theorem lcRefsBelowB_iff {F : Type} (n : Nat) (lc : LinearCombination F) :
    lcRefsBelowB n lc = true ↔
      ∀ t ∈ lc, ∀ j, t.2 = Variable.SymbolicLc j → j < n := by
  unfold lcRefsBelowB
  rw [List.all_eq_true]
  constructor
  · intro h t ht j hj
    have h2 := h t ht
    rw [hj] at h2
    simpa using h2
  · intro h t ht
    obtain ⟨c, v⟩ := t
    cases v with
    | SymbolicLc j => simpa using h (c, Variable.SymbolicLc j) ht j rfl
    | Zero => rfl
    | One => rfl
    | Instance i => rfl
    | Witness i => rfl

theorem dagInvariant_cons_iff {F : Type} (pos : Nat) (lc : LinearCombination F)
    (rest : List (LinearCombination F)) :
    dagInvariant pos (lc :: rest) = true ↔
      lcRefsBelowB pos lc = true ∧ dagInvariant (pos + 1) rest = true := by
  show (lcRefsBelowB pos lc && dagInvariant (pos + 1) rest) = true ↔ _
  rw [Bool.and_eq_true]

/-- The forward pass succeeds under the DAG invariant, and every produced
entry is symbolic-free and a `compactify` fixed point. -/
theorem inlineAllLcsAux_ok {F : Type} [Field F] [DecidableEq F] :
    ∀ (l acc : List (LinearCombination F)),
      (∀ e ∈ acc, lcSymFree e ∧ compactify e = e) →
      dagInvariant acc.length l = true →
      ∃ m, inlineAllLcsAux acc l = some m
        ∧ ∀ e ∈ m, lcSymFree e ∧ compactify e = e
  | [], acc, hacc, _ => ⟨acc, rfl, hacc⟩
  | lc :: rest, acc, hacc, hdag => by
    obtain ⟨href, hrest⟩ := (dagInvariant_cons_iff _ _ _).mp hdag
    obtain ⟨l2, hl2, hl2free⟩ := inlineLc_ok lc acc (fun e he => (hacc e he).1)
      ((lcRefsBelowB_iff _ _).mp href)
    have hacc2 : ∀ e ∈ acc ++ [compactify l2], lcSymFree e ∧ compactify e = e := by
      intro e he
      rcases List.mem_append.mp he with h | h
      · exact hacc e h
      · simp only [List.mem_singleton] at h
        rw [h]
        exact ⟨compactify_symFree _ hl2free, compactify_idem _⟩
    have hlen : (acc ++ [compactify l2]).length = acc.length + 1 := by simp
    obtain ⟨m, hm, hmall⟩ := inlineAllLcsAux_ok rest (acc ++ [compactify l2]) hacc2
      (by rw [hlen]; exact hrest)
    refine ⟨m, ?_, hmall⟩
    unfold inlineAllLcsAux
    rw [hl2]
    exact hm

/-- On a map of symbolic-free `compactify` fixed points, the forward pass
appends the map unchanged. -/
theorem inlineAllLcsAux_id {F : Type} [Field F] [DecidableEq F] :
    ∀ (l acc : List (LinearCombination F)),
      (∀ e ∈ l, lcSymFree e ∧ compactify e = e) →
      inlineAllLcsAux acc l = some (acc ++ l)
  | [], acc, _ => by simp [inlineAllLcsAux]
  | lc :: rest, acc, h => by
    have h1 := h lc (List.mem_cons_self _ _)
    have hstep : inlineAllLcsAux acc (lc :: rest)
        = match inlineLc acc lc with
          | none => none
          | some l => inlineAllLcsAux (acc ++ [compactify l]) rest := rfl
    rw [hstep, inlineLc_symFree_id lc acc h1.1]
    show inlineAllLcsAux (acc ++ [compactify lc]) rest = some (acc ++ lc :: rest)
    rw [h1.2, inlineAllLcsAux_id rest (acc ++ [lc])
      (fun e he => h e (List.mem_cons_of_mem _ he))]
    simp

/-! ### Claims -/

/-- C1: the claim states that `to_matrices()` returns `Some` exactly when
the mode constructs matrices (Setup, or `Prove { construct_matrices: true }`)
and that a fresh arena yields the empty matrices with
`num_instance_variables = 1`.  The source inverts the guard
(`if let Mode::Prove { construct_matrices: false } = self.mode`): a fresh
arena — whose mode is `Prove { construct_matrices: true }` — and a Setup
arena both get `None`, while `Prove { construct_matrices: false }` gets
`Some` of the empty matrices.  The claim describes the documented intent;
the code contradicts its own `ConstraintMatrices` field documentation. -/
theorem to_matrices_mode_guard_inverted :
    (ConstraintSystem.new ℚ).mode = Mode.Prove true
    ∧ (ConstraintSystem.new ℚ).to_matrices = .ok none
    ∧ ({ ConstraintSystem.new ℚ with mode := Mode.Setup }).to_matrices = .ok none
    ∧ ({ ConstraintSystem.new ℚ with mode := Mode.Prove false }).to_matrices
        = .ok (some
            { num_instance_variables := 1
              num_witness_variables := 0
              num_constraints := 0
              a_num_non_zero := 0
              b_num_non_zero := 0
              c_num_non_zero := 0
              a := []
              b := []
              c := [] }) :=
  ⟨rfl, rfl, rfl, rfl⟩

/-- C2: the claim states that a Witness-mode twisted-Edwards allocation that
selects the order-check strategy enforces `g * (r - 1) = -g` via
double-and-add before returning.  In the source the double-and-add `result`
is computed but then dropped: the final enforcement is
`ge.enforce_equal(&ge)`, a tautology.  Concretely, with the group of
rational points modelled by `ZMod 15` (prime order `r = 3`, odd cofactor 5
whose Hamming weight 2 is not lower than that of `r - 1 = 2`), the point
`3` of order 5 is allocated: the emitted equality list is `[(3, 3)]` and
every entry holds, although the claimed constraint `(r-1) * g = -g` is
false at `3` and `3` is not in the order-3 subgroup (`3 * g ≠ 0`).  Compare
`enforce_prime_order`, which emits the correct `(-g, result)` equality; the
allocation path contradicts its own comment ("ensure that the result equals
the identity"). -/
theorem order_check_enforces_trivial_equality :
    (new_variable_witness_order_check (G := ZMod 15) 3 0 [true, false]).1 = 3
    ∧ (new_variable_witness_order_check (G := ZMod 15) 3 0 [true, false]).2
        = [((3 : ZMod 15), (3 : ZMod 15))]
    ∧ enforcedHold (new_variable_witness_order_check (G := ZMod 15) 3 0 [true, false]).2
    ∧ doubleAndAdd (G := ZMod 15) 3 [true, false] = 6
    ∧ (6 : ZMod 15) ≠ -3
    ∧ enforce_prime_order (G := ZMod 15) 3 [true, false] = [(-3, 6)]
    ∧ ¬ enforcedHold (enforce_prime_order (G := ZMod 15) 3 [true, false])
    ∧ (3 : ZMod 15) + 3 + 3 ≠ 0 := by
  refine ⟨rfl, rfl, ?_, rfl, ?_, ?_, ?_, ?_⟩ <;> decide

/-- C5 counterexample: on the `None` handle, `new_input_variable` returns
`AssignmentMissing`, not `MissingCS` as the claim states. -/
theorem none_handle_input_error_kind_cex :
    (ConstraintSystemRef.None : ConstraintSystemRef ℚ).new_input_variable
        (fun _ => .ok 0)
      = (.None, .error SynthesisError.AssignmentMissing)
    ∧ SynthesisError.AssignmentMissing ≠ SynthesisError.MissingCS := by
  exact ⟨rfl, by decide⟩

/-- C5 amended: on the `None` handle, `new_witness_variable` fails with
`MissingCS` while `new_input_variable` fails with `AssignmentMissing`; in
both cases the thunk is never evaluated and nothing is allocated (the
result is independent of the thunk and the handle stays `None`). -/
theorem none_handle_alloc_error_kinds {F : Type} [Field F]
    (f g : Unit → Except SynthesisError F) :
    (ConstraintSystemRef.None : ConstraintSystemRef F).new_input_variable f
      = (.None, .error SynthesisError.AssignmentMissing)
    ∧ (ConstraintSystemRef.None : ConstraintSystemRef F).new_witness_variable g
      = (.None, .error SynthesisError.MissingCS) :=
  ⟨rfl, rfl⟩

/-- C6 counterexample: `compute_full_name` joins the two-element array
`[current_namespace_path, local_name]` with "/", so with no namespace
entered the first unnamed constraint is recorded as "/0", not "0"; the
single-multiplication scenario with `z = 16` reports `Some "/0")`. -/
theorem first_unnamed_constraint_name_cex :
    (csMul 16).constraint_names = ["/0"]
    ∧ (csMul 16).which_is_unsatisfied 1 = .ok (some "/0")
    ∧ ("/0" : String) ≠ "0" := by
  refine ⟨rfl, by decide, by decide⟩

/-- C6 amended: the recorded full name of an unnamed constraint is the
current namespace path joined to the decimal rendering of
`num_constraints` with a "/" separator — the separator is always inserted,
so with no namespace entered the first constraint is named "/0" and a
failing first constraint is reported as `Some "/0")`. -/
theorem unnamed_constraint_full_name {F : Type} [Field F] [DecidableEq F]
    (cs : ConstraintSystem F) (a b c : LinearCombination F) :
    (cs.enforce_constraint a b c).constraint_names
      = cs.constraint_names
          ++ [cs.current_namespace_path ++ "/" ++ toString cs.num_constraints]
    ∧ (csMul 16).which_is_unsatisfied 1 = .ok (some "/0") := by
  constructor
  · unfold ConstraintSystem.enforce_constraint ConstraintSystem.enforce_named_constraint
    cases h : cs.should_construct_matrices <;>
      simp [ConstraintSystem.new_lc, ConstraintSystem.compute_full_name, h]
  · decide

/-- C7: `CubicExtVar::mul_equals` on non-constant coefficients emits exactly
six rank-one constraints — the three products `v0, v1, v2` and the three
`mul_equals` checks of the rearranged Karatsuba identities. -/
theorem cubic_mul_equals_adds_six_constraints {F : Type} [Field F]
    (nonresidue : F) (a b c : CubicExtVar F) (n : Nat) :
    CubicExtVar.mul_equals nonresidue a b c n = n + 6 :=
  rfl

/-- C8: in mode `Prove { construct_matrices: false }`,
`enforce_named_constraint` increments `num_constraints` without touching the
three constraint-index vectors, so once a constraint has been enforced on a
system whose index vectors are empty, `which_is_unsatisfied` (and therefore
`is_satisfied`) indexes past the end of `a_constraints` and panics. -/
theorem prove_without_matrices_check_crashes {F : Type} [Field F] [DecidableEq F]
    (cs : ConstraintSystem F) (fuel : Nat) (name : String)
    (a b c : LinearCombination F)
    (hmode : cs.mode = Mode.Prove false) :
    ((cs.enforce_named_constraint name a b c).num_constraints
        = cs.num_constraints + 1
      ∧ (cs.enforce_named_constraint name a b c).a_constraints = cs.a_constraints
      ∧ (cs.enforce_named_constraint name a b c).b_constraints = cs.b_constraints
      ∧ (cs.enforce_named_constraint name a b c).c_constraints = cs.c_constraints)
    ∧ (cs.a_constraints = [] →
        (cs.enforce_named_constraint name a b c).which_is_unsatisfied fuel
            = .error .crash
        ∧ (cs.enforce_named_constraint name a b c).is_satisfied fuel
            = .error .crash) := by
  have hscm : cs.should_construct_matrices = false := by
    simp [ConstraintSystem.should_construct_matrices, hmode]
  have hcs2 : cs.enforce_named_constraint name a b c
      = { cs with
            num_constraints := cs.num_constraints + 1
            constraint_names :=
              cs.constraint_names ++ [cs.compute_full_name name] } := by
    unfold ConstraintSystem.enforce_named_constraint
    rw [hscm]
    simp
  refine ⟨by rw [hcs2]; exact ⟨rfl, rfl, rfl, rfl⟩, ?_⟩
  intro ha
  have hsetup : (cs.enforce_named_constraint name a b c).is_in_setup_mode = false := by
    rw [hcs2]; simp [ConstraintSystem.is_in_setup_mode, hmode]
  have hwiu : (cs.enforce_named_constraint name a b c).which_is_unsatisfied fuel
      = .error .crash := by
    rw [ConstraintSystem.which_is_unsatisfied, hsetup]
    rw [hcs2]
    show ConstraintSystem.wiuLoop _ fuel 0 (cs.num_constraints + 1) = .error .crash
    rw [ConstraintSystem.wiuLoop]
    simp [ha]
  refine ⟨hwiu, ?_⟩
  rw [ConstraintSystem.is_satisfied, hsetup, hwiu]
  rfl

/-- C8 witness: the crash at a concrete input — a fresh arena switched to
`Prove { construct_matrices: false }` with one enforced constraint. -/
theorem prove_without_matrices_check_crashes_witness :
    ({ ConstraintSystem.new ℚ with mode := Mode.Prove false } :
        ConstraintSystem ℚ).mode = Mode.Prove false
    ∧ ({ ConstraintSystem.new ℚ with
          mode := Mode.Prove false }.enforce_named_constraint "c" [] [] []).which_is_unsatisfied 0
        = .error .crash := by
  refine ⟨rfl, ?_⟩
  exact ((prove_without_matrices_check_crashes
    { ConstraintSystem.new ℚ with mode := Mode.Prove false }
    0 "c" [] [] [] rfl).2 rfl).1

/-- C9: `AffineVar::is_zero` conjoins `x.is_zero()` with `x.is_one()` — it
tests the x coordinate twice and never inspects y — so over any field
(where 0 ≠ 1) it returns `false` for every point, including the identity
`zero() = (0, 1)`. -/
theorem affine_is_zero_always_false {F : Type} [Field F] [DecidableEq F]
    (p : TEAffineVar F) :
    p.is_zero = false ∧ (TEAffineVar.zero F).is_zero = false := by
  have h : ∀ q : TEAffineVar F, q.is_zero = false := by
    intro q
    by_cases h0 : q.x = 0
    · have h1 : q.x ≠ 1 := by rw [h0]; exact zero_ne_one
      simp [TEAffineVar.is_zero, fvIsZero, fvIsOne, h0, h1]
    · simp [TEAffineVar.is_zero, fvIsZero, h0]
  exact ⟨h p, h (TEAffineVar.zero F)⟩

/-- C10: in `Prove` mode, the variable counter is incremented before the
value thunk runs, so when the thunk errs the error propagates with the
counter already bumped and the assignment vector unchanged — afterwards the
counter strictly exceeds the assignment length whenever they agreed before
the call. -/
theorem alloc_counter_advances_on_thunk_error {F : Type} [Field F]
    (cs : ConstraintSystem F) (b : Bool) (e : SynthesisError)
    (f : Unit → Except SynthesisError F)
    (hmode : cs.mode = Mode.Prove b) (hf : f () = .error e) :
    ((cs.new_input_variable f).2 = .error e
      ∧ (cs.new_input_variable f).1.num_instance_variables
          = cs.num_instance_variables + 1
      ∧ (cs.new_input_variable f).1.instance_assignment = cs.instance_assignment
      ∧ (cs.num_instance_variables = cs.instance_assignment.length →
          (cs.new_input_variable f).1.instance_assignment.length
            < (cs.new_input_variable f).1.num_instance_variables))
    ∧ ((cs.new_witness_variable f).2 = .error e
      ∧ (cs.new_witness_variable f).1.num_witness_variables
          = cs.num_witness_variables + 1
      ∧ (cs.new_witness_variable f).1.witness_assignment = cs.witness_assignment
      ∧ (cs.num_witness_variables = cs.witness_assignment.length →
          (cs.new_witness_variable f).1.witness_assignment.length
            < (cs.new_witness_variable f).1.num_witness_variables)) := by
  have hrun1 : cs.new_input_variable f
      = ({ cs with num_instance_variables := cs.num_instance_variables + 1 },
          .error e) := by
    unfold ConstraintSystem.new_input_variable
    simp only [ConstraintSystem.is_in_setup_mode, hmode, hf]
    simp
  have hrun2 : cs.new_witness_variable f
      = ({ cs with num_witness_variables := cs.num_witness_variables + 1 },
          .error e) := by
    unfold ConstraintSystem.new_witness_variable
    simp only [ConstraintSystem.is_in_setup_mode, hmode, hf]
    simp
  rw [hrun1, hrun2]
  refine ⟨⟨rfl, rfl, rfl, fun hagree => ?_⟩, rfl, rfl, rfl, fun hagree => ?_⟩
  · show cs.instance_assignment.length < cs.num_instance_variables + 1
    omega
  · show cs.witness_assignment.length < cs.num_witness_variables + 1
    omega

/-- C10 witness: the non-atomic allocation at a concrete input — a fresh
arena and an erring thunk. -/
theorem alloc_counter_advances_on_thunk_error_witness :
    (ConstraintSystem.new ℚ).mode = Mode.Prove true
    ∧ ((fun _ => .error SynthesisError.AssignmentMissing :
          Unit → Except SynthesisError ℚ) ()
        = .error SynthesisError.AssignmentMissing)
    ∧ ((ConstraintSystem.new ℚ).new_input_variable
          (fun _ => .error SynthesisError.AssignmentMissing)).1.instance_assignment.length
        < ((ConstraintSystem.new ℚ).new_input_variable
          (fun _ => .error SynthesisError.AssignmentMissing)).1.num_instance_variables := by
  refine ⟨rfl, rfl, ?_⟩
  exact (alloc_counter_advances_on_thunk_error (ConstraintSystem.new ℚ) true
    SynthesisError.AssignmentMissing _ rfl rfl).1.2.2.2 rfl

/-- C3: in `Prove { construct_matrices: true }` mode with all needed
assignments present (every referenced linear combination evaluates),
`is_satisfied` returns `Some true` iff every constraint passes the product
check `eval(a_i) * eval(b_i) = eval(c_i)`; `which_is_unsatisfied` returns
`None` when all pass and otherwise the recorded name of the first (lowest
index) failing constraint; and in Setup mode both return `None`. -/
theorem satisfaction_check_spec {F : Type} [Field F] [DecidableEq F]
    (cs : ConstraintSystem F) (fuel : Nat) (va vb vc : Nat → F)
    (hlen : cs.mode = Mode.Prove true →
        cs.a_constraints.length = cs.num_constraints
        ∧ cs.b_constraints.length = cs.num_constraints
        ∧ cs.c_constraints.length = cs.num_constraints
        ∧ cs.constraint_names.length = cs.num_constraints)
    (heval : cs.mode = Mode.Prove true →
        ∀ i, i < cs.num_constraints →
          cs.eval_lc fuel (cs.a_constraints.getD i 0) = some (va i)
          ∧ cs.eval_lc fuel (cs.b_constraints.getD i 0) = some (vb i)
          ∧ cs.eval_lc fuel (cs.c_constraints.getD i 0) = some (vc i)) :
    (cs.mode = Mode.Setup →
        cs.is_satisfied fuel = .ok none
        ∧ cs.which_is_unsatisfied fuel = .ok none)
    ∧ (cs.mode = Mode.Prove true →
        (cs.is_satisfied fuel = .ok (some true)
          ↔ ∀ i, i < cs.num_constraints → va i * vb i = vc i)
        ∧ ((∀ i, i < cs.num_constraints → va i * vb i = vc i) →
            cs.which_is_unsatisfied fuel = .ok none)
        ∧ (∀ j, j < cs.num_constraints → va j * vb j ≠ vc j →
            (∀ i, i < j → va i * vb i = vc i) →
            cs.which_is_unsatisfied fuel
              = .ok (some (cs.constraint_names.getD j "")))) := by
  classical
  constructor
  · intro hsetup
    have h1 : cs.is_in_setup_mode = true := by
      simp [ConstraintSystem.is_in_setup_mode, hsetup]
    exact ⟨by simp [ConstraintSystem.is_satisfied, h1],
      by simp [ConstraintSystem.which_is_unsatisfied, h1]⟩
  · intro hmode
    obtain ⟨hla, hlb, hlc, hln⟩ := hlen hmode
    have hev := heval hmode
    have h0 : cs.is_in_setup_mode = false := by
      simp [ConstraintSystem.is_in_setup_mode, hmode]
    have hwiu_def : cs.which_is_unsatisfied fuel
        = cs.wiuLoop fuel 0 cs.num_constraints := by
      simp [ConstraintSystem.which_is_unsatisfied, h0]
    have hsat_def : cs.is_satisfied fuel
        = (cs.which_is_unsatisfied fuel).map fun r => some r.isNone := by
      simp [ConstraintSystem.is_satisfied, h0]
    have hfirst : ∀ j, j < cs.num_constraints → va j * vb j ≠ vc j →
        (∀ i, i < j → va i * vb i = vc i) →
        cs.which_is_unsatisfied fuel
          = .ok (some (cs.constraint_names.getD j "")) := by
      intro j hj hfail hpre
      rw [hwiu_def]
      exact wiuLoop_first_fail cs fuel va vb vc hla hlb hlc hln hev
        cs.num_constraints 0 j (by omega) (by omega) hj
        (fun k _ hk => hpre k hk) hfail
    have hallnone : (∀ i, i < cs.num_constraints → va i * vb i = vc i) →
        cs.which_is_unsatisfied fuel = .ok none := by
      intro hall
      rw [hwiu_def]
      exact wiuLoop_ok_none cs fuel va vb vc hla hlb hlc hev
        cs.num_constraints 0 (by omega) (fun k _ hk => hall k (by omega))
    refine ⟨?_, hallnone, hfirst⟩
    by_cases hall : ∀ i, i < cs.num_constraints → va i * vb i = vc i
    · rw [hsat_def, hallnone hall]
      exact ⟨fun _ => hall, fun _ => rfl⟩
    · push_neg at hall
      obtain ⟨j0, hj0, hfail0⟩ := hall
      have hex : ∃ j, j < cs.num_constraints ∧ va j * vb j ≠ vc j :=
        ⟨j0, hj0, hfail0⟩
      have hPj := Nat.find_spec hex
      have hpre : ∀ i, i < Nat.find hex → va i * vb i = vc i := by
        intro i hi
        by_contra hne
        exact Nat.find_min hex hi ⟨by omega, hne⟩
      rw [hsat_def, hfirst (Nat.find hex) hPj.1 hPj.2 hpre]
      constructor
      · intro habs
        simp [Except.map] at habs
      · intro hall2
        exact absurd (hall2 (Nat.find hex) hPj.1) hPj.2

/-- C3 witness: the single-multiplication scenario with `z = 15` satisfies
the hypotheses, and the theorem yields `is_satisfied = Some true`. -/
theorem satisfaction_check_spec_witness :
    (csMul 15).mode = Mode.Prove true
    ∧ (csMul 15).is_satisfied 1 = .ok (some true) := by
  refine ⟨rfl, ?_⟩
  have hone : (csMul 15).num_constraints = 1 := rfl
  have heval : ∀ i, i < (csMul 15).num_constraints →
      (csMul 15).eval_lc 1 ((csMul 15).a_constraints.getD i 0)
          = some ((fun _ => (3 : ZMod 17)) i)
      ∧ (csMul 15).eval_lc 1 ((csMul 15).b_constraints.getD i 0)
          = some ((fun _ => (5 : ZMod 17)) i)
      ∧ (csMul 15).eval_lc 1 ((csMul 15).c_constraints.getD i 0)
          = some ((fun _ => (15 : ZMod 17)) i) := by
    intro i hi
    have h0 : i = 0 := by omega
    subst h0
    exact ⟨by decide, by decide, by decide⟩
  have h := (satisfaction_check_spec (csMul 15) 1
      (fun _ => 3) (fun _ => 5) (fun _ => 15)
      (fun _ => ⟨rfl, rfl, rfl, rfl⟩) (fun _ => heval)).2 rfl
  exact h.1.mpr (by intro i hi; decide)

/-- C4: under the DAG/ordering invariant (every registered linear
combination references only symbolic indices strictly smaller than its
own), `inline_all_lcs` succeeds, afterwards no linear combination in
`lc_map` contains a `SymbolicLc` term, and a second run of
`inline_all_lcs` returns the map exactly unchanged (in particular
unchanged up to term order). -/
theorem inline_all_lcs_fixpoint {F : Type} [Field F] [DecidableEq F]
    (cs : ConstraintSystem F) (hdag : dagInvariant 0 cs.lc_map = true) :
    ∃ cs2, cs.inline_all_lcs = some cs2
      ∧ (∀ lc ∈ cs2.lc_map, lcSymFree lc)
      ∧ cs2.inline_all_lcs = some cs2 := by
  obtain ⟨m, hm, hall⟩ := inlineAllLcsAux_ok cs.lc_map []
    (by intro e he; simp at he) hdag
  refine ⟨{ cs with lc_map := m }, ?_, ?_, ?_⟩
  · unfold ConstraintSystem.inline_all_lcs
    rw [hm]
    rfl
  · intro lc hlc
    exact (hall lc hlc).1
  · unfold ConstraintSystem.inline_all_lcs
    show (inlineAllLcsAux [] m).map _ = _
    rw [inlineAllLcsAux_id m [] hall]
    rfl

/-- C4 witness: a concrete arena whose second linear combination references
the first symbolically; the DAG invariant holds and the theorem applies. -/
theorem inline_all_lcs_fixpoint_witness :
    dagInvariant 0 csSymbolic.lc_map = true
    ∧ ∃ cs2, csSymbolic.inline_all_lcs = some cs2
        ∧ (∀ lc ∈ cs2.lc_map, lcSymFree lc)
        ∧ cs2.inline_all_lcs = some cs2 :=
  ⟨by decide, inline_all_lcs_fixpoint csSymbolic (by decide)⟩

end R1CS
